import Mathlib

/-!
Verification of the B-spline evaluation core
(`src/content/simd_benchmarking/benchmarking_code/src/lib.rs`).

The two Rust functions `basis_activation` and `b_spline` are embedded
shallowly over exact rationals.  Slice indexing `knots[i]` panics in Rust
when out of bounds; panics are modelled by `Option`, with `none` standing
for a panic.  Rust's `&&` short-circuits, so in the degree-0 base case
`knots[i + 1]` is only read when `knots[i] <= x` holds; the embedding
reproduces that order of accesses.  IEEE-754 special values (needed for
the degenerate-knot division-by-zero behaviour) are modelled separately
by the `FP` type below.
-/

namespace BSplineVerif

/-- Embedding of `basis_activation` from `lib.rs` (lines 2–18): the
Cox–de Boor recursion over exact rationals, with `none` modelling a
panic from an out-of-bounds slice index.  The base case reads
`knots[i]`, tests `knots[i] <= x`, and only when that holds reads
`knots[i + 1]` (Rust `&&` short-circuit); the recursive case reads
`knots[i]`, `knots[i + k]`, recurses on the left, reads
`knots[i + k + 1]`, `knots[i + 1]`, and recurses on the right. -/
def basis_activation (i k : Nat) (x : ℚ) (knots : List ℚ) : Option ℚ :=
  match k with
  | 0 => do
    let a ← knots[i]?
    if a ≤ x then do
      let b ← knots[i + 1]?
      pure (if x < b then (1 : ℚ) else 0)
    else
      pure 0
  | k' + 1 => do
    let ti ← knots[i]?
    let tik ← knots[i + (k' + 1)]?
    let left_coefficient := (x - ti) / (tik - ti)
    let left_recursion ← basis_activation i k' x knots
    let tik1 ← knots[i + (k' + 1) + 1]?
    let ti1 ← knots[i + 1]?
    let right_coefficient := (tik1 - x) / (tik1 - ti1)
    let right_recursion ← basis_activation (i + 1) k' x knots
    pure (left_coefficient * left_recursion + right_coefficient * right_recursion)

/-- The Cox–de Boor reference definition, written from the spec (§4.1):
degree 0 is the half-open indicator of `[knots[i], knots[i+1])`, and
degree `k > 0` is the weighted sum of the two lower-degree terms.  Total
over rationals (out-of-range indices read the default `0`); to be
compared with the source embedding `basis_activation`. -/
def evaluate_basis (i k : Nat) (x : ℚ) (knots : List ℚ) : ℚ :=
  match k with
  | 0 => if knots.getD i 0 ≤ x ∧ x < knots.getD (i + 1) 0 then 1 else 0
  | k' + 1 =>
    (x - knots.getD i 0) / (knots.getD (i + (k' + 1)) 0 - knots.getD i 0)
      * evaluate_basis i k' x knots
    + (knots.getD (i + (k' + 1) + 1) 0 - x)
      / (knots.getD (i + (k' + 1) + 1) 0 - knots.getD (i + 1) 0)
      * evaluate_basis (i + 1) k' x knots

/-- The accumulation loop of `b_spline` (`for i in 0..control_points.len()`),
embedded structurally: `cps` is the still-unprocessed suffix of the
control points, `i` the index of its head in the original sequence, and
`result` the accumulator.  `control_points[i]` is always in bounds in the
loop, so traversing the list is faithful; a panic inside
`basis_activation` aborts the whole loop (`none`). -/
def b_spline_go (x : ℚ) (knots : List ℚ) (degree : Nat) :
    List ℚ → Nat → ℚ → Option ℚ
  | [], _, result => some result
  | c :: cps, i, result =>
    match basis_activation i degree x knots with
    | none => none
    | some b => b_spline_go x knots degree cps (i + 1) (result + c * b)

/-- Embedding of `b_spline` from `lib.rs` (lines 21–27). -/
def b_spline (x : ℚ) (control_points knots : List ℚ) (degree : Nat) : Option ℚ :=
  b_spline_go x knots degree control_points 0 0

/-- Depth-indexed version of `basis_activation`: the same recursion, but
each nested call consumes one unit of `fuel`, and the outer `Option` is
`none` when the fuel runs out before the recursion bottoms out.  Used to
express that the recursion depth is bounded by the degree. -/
def basis_activation_fuel (fuel : Nat) (i k : Nat) (x : ℚ) (knots : List ℚ) :
    Option (Option ℚ) :=
  match fuel with
  | 0 => none
  | fuel' + 1 =>
    match k with
    | 0 =>
      some (do
        let a ← knots[i]?
        if a ≤ x then do
          let b ← knots[i + 1]?
          pure (if x < b then (1 : ℚ) else 0)
        else
          pure 0)
    | k' + 1 => do
      let left ← basis_activation_fuel fuel' i k' x knots
      let right ← basis_activation_fuel fuel' (i + 1) k' x knots
      some (do
        let ti ← knots[i]?
        let tik ← knots[i + (k' + 1)]?
        let left_coefficient := (x - ti) / (tik - ti)
        let left_recursion ← left
        let tik1 ← knots[i + (k' + 1) + 1]?
        let ti1 ← knots[i + 1]?
        let right_coefficient := (tik1 - x) / (tik1 - ti1)
        let right_recursion ← right
        pure (left_coefficient * left_recursion + right_coefficient * right_recursion))

/-- Model of IEEE-754 double values whose finite values are exactly
representable: a finite rational, one of the two infinities, or NaN.
The sign of zero is not tracked (every finite zero is `fin 0`); the
operations below agree with IEEE-754 double arithmetic whenever no
rounding occurs and no negative zero arises, which covers the concrete
degenerate-knot traces evaluated in this file. -/
inductive FP where
  | fin : ℚ → FP
  | inf : FP
  | ninf : FP
  | nan : FP
deriving DecidableEq

/-- IEEE-754 addition on `FP` (NaN propagates; `inf + ninf = nan`). -/
def FP.add : FP → FP → FP
  | .nan, _ => .nan
  | _, .nan => .nan
  | .fin a, .fin b => .fin (a + b)
  | .inf, .ninf => .nan
  | .ninf, .inf => .nan
  | .inf, _ => .inf
  | _, .inf => .inf
  | .ninf, _ => .ninf
  | _, .ninf => .ninf

/-- IEEE-754 subtraction on `FP` (NaN propagates; `inf - inf = nan`). -/
def FP.sub : FP → FP → FP
  | .nan, _ => .nan
  | _, .nan => .nan
  | .fin a, .fin b => .fin (a - b)
  | .inf, .inf => .nan
  | .ninf, .ninf => .nan
  | .inf, _ => .inf
  | .ninf, _ => .ninf
  | _, .inf => .ninf
  | _, .ninf => .inf

/-- IEEE-754 multiplication on `FP` (NaN propagates; `0 * inf = nan`). -/
def FP.mul : FP → FP → FP
  | .nan, _ => .nan
  | _, .nan => .nan
  | .fin a, .fin b => .fin (a * b)
  | .fin a, .inf => if a = 0 then .nan else if 0 < a then .inf else .ninf
  | .inf, .fin a => if a = 0 then .nan else if 0 < a then .inf else .ninf
  | .fin a, .ninf => if a = 0 then .nan else if 0 < a then .ninf else .inf
  | .ninf, .fin a => if a = 0 then .nan else if 0 < a then .ninf else .inf
  | .inf, .inf => .inf
  | .inf, .ninf => .ninf
  | .ninf, .inf => .ninf
  | .ninf, .ninf => .inf

/-- IEEE-754 division on `FP` (NaN propagates; a nonzero finite value
divided by zero gives a signed infinity — the divisor zero is `+0`
here, as produced by `x - x`; `0 / 0 = nan`; `inf / inf = nan`). -/
def FP.div : FP → FP → FP
  | .nan, _ => .nan
  | _, .nan => .nan
  | .fin a, .fin b =>
    if b = 0 then (if a = 0 then .nan else if 0 < a then .inf else .ninf)
    else .fin (a / b)
  | .fin _, .inf => .fin 0
  | .fin _, .ninf => .fin 0
  | .inf, .fin b => if 0 ≤ b then .inf else .ninf
  | .ninf, .fin b => if 0 ≤ b then .ninf else .inf
  | .inf, .inf => .nan
  | .inf, .ninf => .nan
  | .ninf, .inf => .nan
  | .ninf, .ninf => .nan

/-- IEEE-754 `<=` on `FP`: comparisons involving NaN are false. -/
def FP.le : FP → FP → Bool
  | .nan, _ => false
  | _, .nan => false
  | .fin a, .fin b => decide (a ≤ b)
  | .ninf, _ => true
  | _, .inf => true
  | .inf, .fin _ => false
  | .inf, .ninf => false
  | .fin _, .ninf => false

/-- IEEE-754 `<` on `FP`: comparisons involving NaN are false. -/
def FP.lt : FP → FP → Bool
  | .nan, _ => false
  | _, .nan => false
  | .fin a, .fin b => decide (a < b)
  | .ninf, .ninf => false
  | .ninf, _ => true
  | .inf, _ => false
  | .fin _, .inf => true
  | .fin _, .ninf => false

/-- `basis_activation` replayed over the IEEE-754 value model `FP`:
the same accesses, comparisons and arithmetic as the `f64` source, with
divisions performed as written (no zero-denominator guard). -/
def basis_activation_fp (i k : Nat) (x : FP) (knots : List FP) : Option FP :=
  match k with
  | 0 => do
    let a ← knots[i]?
    if a.le x then do
      let b ← knots[i + 1]?
      pure (if x.lt b then FP.fin 1 else FP.fin 0)
    else
      pure (FP.fin 0)
  | k' + 1 => do
    let ti ← knots[i]?
    let tik ← knots[i + (k' + 1)]?
    let left_coefficient := (x.sub ti).div (tik.sub ti)
    let left_recursion ← basis_activation_fp i k' x knots
    let tik1 ← knots[i + (k' + 1) + 1]?
    let ti1 ← knots[i + 1]?
    let right_coefficient := (tik1.sub x).div (tik1.sub ti1)
    let right_recursion ← basis_activation_fp (i + 1) k' x knots
    pure ((left_coefficient.mul left_recursion).add
      (right_coefficient.mul right_recursion))

theorem basis_activation_eq_some (k : Nat) (x : ℚ) (knots : List ℚ) :
    ∀ i : Nat, i + k + 1 < knots.length →
      basis_activation i k x knots = some (evaluate_basis i k x knots) := by
  induction k with
  | zero =>
    intro i h
    have hi : i < knots.length := by omega
    have hi1 : i + 1 < knots.length := by omega
    simp only [basis_activation, evaluate_basis,
      List.getElem?_eq_getElem hi, List.getElem?_eq_getElem hi1,
      List.getD_eq_getElem?_getD, List.getElem?_eq_getElem, Option.getD_some]
    by_cases h1 : knots[i] ≤ x
    · by_cases h2 : x < knots[i + 1] <;> simp [h1, h2]
    · simp [h1]
  | succ k' ih =>
    intro i h
    have hi : i < knots.length := by omega
    have hik : i + (k' + 1) < knots.length := by omega
    have hik1 : i + (k' + 1) + 1 < knots.length := by omega
    have hi1 : i + 1 < knots.length := by omega
    rw [basis_activation]
    simp only [List.getElem?_eq_getElem hi, List.getElem?_eq_getElem hik,
      List.getElem?_eq_getElem hik1, List.getElem?_eq_getElem hi1,
      ih i (by omega), ih (i + 1) (by omega), Option.bind_some]
    rw [evaluate_basis]
    simp only [List.getD_eq_getElem?_getD, List.getElem?_eq_getElem hi,
      List.getElem?_eq_getElem hik, List.getElem?_eq_getElem hik1,
      List.getElem?_eq_getElem hi1, Option.getD_some]
    rfl

/-- The left Cox–de Boor coefficient of degree `k + 1` at index `i`:
`(x - knots[i]) / (knots[i + k + 1] - knots[i])`.  Used to state the
telescoping step of the partition-of-unity argument. -/
def leftCoef (x : ℚ) (knots : List ℚ) (k i : Nat) : ℚ :=
  (x - knots.getD i 0) / (knots.getD (i + (k + 1)) 0 - knots.getD i 0)

theorem getD_mono {knots : List ℚ} (hs : knots.Sorted (· ≤ ·)) {a b : Nat}
    (hab : a ≤ b) (hb : b < knots.length) :
    knots.getD a 0 ≤ knots.getD b 0 := by
  have ha : a < knots.length := Nat.lt_of_le_of_lt hab hb
  rw [List.getD_eq_getElem knots 0 ha, List.getD_eq_getElem knots 0 hb]
  rcases Nat.lt_or_ge a b with h | h
  · exact List.pairwise_iff_getElem.mp hs a b ha hb h
  · have hab' : a = b := Nat.le_antisymm hab h
    subst hab'
    exact le_refl _

theorem getD_strict_mono {knots : List ℚ} (hs : knots.Sorted (· < ·)) {a b : Nat}
    (hab : a < b) (hb : b < knots.length) :
    knots.getD a 0 < knots.getD b 0 := by
  have ha : a < knots.length := Nat.lt_trans hab hb
  rw [List.getD_eq_getElem knots 0 ha, List.getD_eq_getElem knots 0 hb]
  exact List.pairwise_iff_getElem.mp hs a b ha hb hab

theorem b_spline_go_eq_sum (x : ℚ) (knots : List ℚ) (degree : Nat) :
    ∀ (cps : List ℚ) (i : Nat) (r : ℚ),
      (∀ j, j < cps.length → i + j + degree + 1 < knots.length) →
      b_spline_go x knots degree cps i r =
        some (r + ∑ j ∈ Finset.range cps.length,
          cps.getD j 0 * evaluate_basis (i + j) degree x knots) := by
  intro cps
  induction cps with
  | nil =>
    intro i r _
    simp [b_spline_go]
  | cons c cps ih =>
    intro i r h
    have h0 : i + degree + 1 < knots.length := by
      have := h 0 (Nat.succ_pos _); omega
    rw [b_spline_go, basis_activation_eq_some degree x knots i h0]
    show b_spline_go x knots degree cps (i + 1)
      (r + c * evaluate_basis i degree x knots) = _
    rw [ih (i + 1) (r + c * evaluate_basis i degree x knots)
      (fun j hj => by have := h (j + 1) (by simpa using Nat.succ_lt_succ hj); omega)]
    congr 1
    rw [List.length_cons, Finset.sum_range_succ']
    simp only [List.getD_cons_succ, List.getD_cons_zero]
    have harg : ∀ j : Nat, i + 1 + j = i + (j + 1) := fun j => by omega
    simp only [harg, Nat.add_zero]
    ring

theorem b_spline_go_map (x : ℚ) (knots : List ℚ) (degree : Nat) (c : ℚ) :
    ∀ (cps : List ℚ) (i : Nat) (r : ℚ),
      b_spline_go x knots degree (cps.map (fun p => c * p)) i (c * r) =
        Option.map (fun v => c * v) (b_spline_go x knots degree cps i r) := by
  intro cps
  induction cps with
  | nil => intro i r; rfl
  | cons p cps ih =>
    intro i r
    rw [List.map_cons, b_spline_go, b_spline_go]
    cases basis_activation i degree x knots with
    | none => rfl
    | some b =>
      show b_spline_go x knots degree (cps.map (fun p => c * p)) (i + 1)
        (c * r + c * p * b) = Option.map (fun v => c * v)
          (b_spline_go x knots degree cps (i + 1) (r + p * b))
      have hacc : c * r + c * p * b = c * (r + p * b) := by ring
      rw [hacc, ih]

theorem basis_activation_none_of_oob (x : ℚ) (knots : List ℚ) (i k' : Nat)
    (h : knots.length ≤ i + k' + 2) :
    basis_activation i (k' + 1) x knots = none := by
  rw [basis_activation]
  rcases Nat.lt_or_ge i knots.length with hi | hi
  · rcases Nat.lt_or_ge (i + (k' + 1)) knots.length with hik | hik
    · have hik1 : knots.length ≤ i + (k' + 1) + 1 := by omega
      simp [List.getElem?_eq_getElem hi, List.getElem?_eq_getElem hik,
        basis_activation_eq_some k' x knots i (by omega),
        List.getElem?_eq_none hik1]
    · simp [List.getElem?_eq_getElem hi, List.getElem?_eq_none hik]
  · simp [List.getElem?_eq_none hi]

theorem basis_activation_fuel_spec (fuel : Nat) :
    ∀ (i k : Nat) (x : ℚ) (knots : List ℚ), k < fuel →
      basis_activation_fuel fuel i k x knots = some (basis_activation i k x knots) := by
  induction fuel with
  | zero =>
    intro i k x knots h
    exact absurd h (Nat.not_lt_zero k)
  | succ fuel' ih =>
    intro i k x knots h
    cases k with
    | zero => rfl
    | succ k' =>
      rw [basis_activation_fuel, ih i k' x knots (by omega),
        ih (i + 1) k' x knots (by omega)]
      rfl

/-- C1: under the in-bounds precondition, `basis_activation` computes
exactly the Cox–de Boor reference recursion (half-open indicator at
degree 0, weighted left and right terms at positive degree). -/
theorem basis_activation_matches_cox_de_boor (i k : Nat) (x : ℚ) (knots : List ℚ)
    (h : i + k + 1 < knots.length) :
    basis_activation i k x knots = some (evaluate_basis i k x knots) :=
  basis_activation_eq_some k x knots i h

theorem basis_activation_matches_cox_de_boor_witness :
    basis_activation 0 1 (1/2) [(0 : ℚ), 1, 2] =
      some (evaluate_basis 0 1 (1/2) [(0 : ℚ), 1, 2]) :=
  basis_activation_matches_cox_de_boor 0 1 (1/2) [(0 : ℚ), 1, 2] (by decide)

/-- C2: when the knot vector is long enough for every basis evaluation,
`b_spline` returns the sum over `i` of `control_points[i]` times the
`i`-th basis function of the given degree at `x`. -/
theorem b_spline_eq_weighted_sum (x : ℚ) (control_points knots : List ℚ)
    (degree : Nat)
    (h : ∀ j, j < control_points.length → j + degree + 1 < knots.length) :
    b_spline x control_points knots degree =
      some (∑ j ∈ Finset.range control_points.length,
        control_points.getD j 0 * evaluate_basis j degree x knots) := by
  have hgo := b_spline_go_eq_sum x knots degree control_points 0 0
    (fun j hj => by have := h j hj; omega)
  rw [b_spline, hgo]
  simp

theorem b_spline_eq_weighted_sum_witness :
    b_spline (1/2) [(5 : ℚ), 7] [(0 : ℚ), 1, 2] 0 =
      some (∑ j ∈ Finset.range ([(5 : ℚ), 7]).length,
        ([(5 : ℚ), 7]).getD j 0 * evaluate_basis j 0 (1/2) [(0 : ℚ), 1, 2]) :=
  b_spline_eq_weighted_sum (1/2) [(5 : ℚ), 7] [(0 : ℚ), 1, 2] 0
    (fun j hj => by simp only [List.length_cons, List.length_nil] at hj ⊢; omega)

/-- C4: every knot access of `basis_activation` is in bounds when
`i + k + 1 < knots.length` (no panic, the call returns a value), and
consequently `b_spline` cannot go out of bounds when
`knots.length ≥ control_points.length + degree + 1`. -/
theorem basis_activation_bounds_safe (i k : Nat) (x : ℚ)
    (control_points knots : List ℚ) (degree : Nat) :
    (i + k + 1 < knots.length → (basis_activation i k x knots).isSome = true) ∧
    (control_points.length + degree + 1 ≤ knots.length →
      (b_spline x control_points knots degree).isSome = true) := by
  constructor
  · intro h
    rw [basis_activation_eq_some k x knots i h]
    rfl
  · intro h
    rw [b_spline, b_spline_go_eq_sum x knots degree control_points 0 0
      (fun j hj => by omega)]
    rfl

theorem basis_activation_bounds_safe_witness :
    (basis_activation 0 1 (1/2) [(0 : ℚ), 1, 2]).isSome = true ∧
    (b_spline (1/2) [(1 : ℚ)] [(0 : ℚ), 1, 2] 1).isSome = true :=
  ⟨(basis_activation_bounds_safe 0 1 (1/2) [(1 : ℚ)] [(0 : ℚ), 1, 2] 1).1 (by decide),
   (basis_activation_bounds_safe 0 1 (1/2) [(1 : ℚ)] [(0 : ℚ), 1, 2] 1).2 (by decide)⟩

/-- C5 is refuted: with `knots = [5]`, `index = 0`, `degree = 0`, `x = 3`
the claim's failure condition `index + 1 >= knots.len()` holds, yet the
call returns `0.0` without any out-of-bounds access, because Rust's `&&`
short-circuits: `knots[0] <= x` is false, so `knots[1]` is never read. -/
theorem basis_activation_short_circuit_counterexample :
    0 + 1 ≥ ([(5 : ℚ)]).length ∧ basis_activation 0 0 3 [(5 : ℚ)] = some 0 := by
  exact ⟨by decide, by decide⟩

/-- C5 amended: `basis_activation` panics exactly when an out-of-bounds
access is actually performed: at degree 0 this happens iff `i ≥ len` or
(`knots[i] ≤ x` and `i + 1 ≥ len`) — the `&&` short-circuit skips the
second access otherwise — and at degree `k > 0` iff `i + k + 1 ≥ len`. -/
theorem basis_activation_panic_iff (i k : Nat) (x : ℚ) (knots : List ℚ) :
    basis_activation i k x knots = none ↔
      (if k = 0 then
        knots.length ≤ i ∨ (knots.getD i 0 ≤ x ∧ knots.length ≤ i + 1)
      else knots.length ≤ i + k + 1) := by
  cases k with
  | zero =>
    rw [if_pos rfl, basis_activation]
    rcases Nat.lt_or_ge i knots.length with hi | hi
    · rw [List.getD_eq_getElem knots 0 hi]
      by_cases hax : knots[i] ≤ x
      · rcases Nat.lt_or_ge (i + 1) knots.length with hi1 | hi1
        · simp [List.getElem?_eq_getElem hi, List.getElem?_eq_getElem hi1, hax]
          omega
        · simp [List.getElem?_eq_getElem hi, List.getElem?_eq_none hi1, hax]
          omega
      · simp [List.getElem?_eq_getElem hi, hax]
        omega
    · simp [List.getElem?_eq_none hi, hi]
  | succ k' =>
    rw [if_neg (Nat.succ_ne_zero k')]
    constructor
    · intro hnone
      by_contra hlt
      rw [basis_activation_eq_some (k' + 1) x knots i (by omega)] at hnone
      exact Option.noConfusion hnone
    · intro hle
      exact basis_activation_none_of_oob x knots i k' (by omega)

/-- C7: at a parameter exactly equal to the last knot value of a
non-decreasing knot vector, the degree-0 basis function is `0.0` for
every in-bounds index, by the half-open-interval convention. -/
theorem basis_degree0_zero_at_last_knot (i : Nat) (knots : List ℚ)
    (hs : knots.Sorted (· ≤ ·)) (hi : i + 1 < knots.length) :
    basis_activation i 0 (knots.getD (knots.length - 1) 0) knots = some 0 := by
  have hi0 : i < knots.length := by omega
  have hL : knots[i + 1] ≤ knots.getD (knots.length - 1) 0 := by
    have hmono := @getD_mono knots hs (i + 1) (knots.length - 1)
      (by omega) (by omega)
    rwa [List.getD_eq_getElem knots 0 hi] at hmono
  rw [basis_activation]
  simp only [List.getElem?_eq_getElem hi0, List.getElem?_eq_getElem hi]
  show (if knots[i] ≤ knots.getD (knots.length - 1) 0 then
      some (if knots.getD (knots.length - 1) 0 < knots[i + 1] then (1 : ℚ) else 0)
    else some 0) = some 0
  by_cases hax : knots[i] ≤ knots.getD (knots.length - 1) 0
  · rw [if_pos hax, if_neg (not_lt.2 hL)]
  · rw [if_neg hax]

theorem basis_degree0_zero_at_last_knot_witness :
    basis_activation 0 0 (([(0 : ℚ), 1, 2]).getD (([(0 : ℚ), 1, 2]).length - 1) 0)
      [(0 : ℚ), 1, 2] = some 0 :=
  basis_degree0_zero_at_last_knot 0 [(0 : ℚ), 1, 2] (by decide) (by decide)

/-- C8: `b_spline` is homogeneous in the control points: scaling every
control point by `c` scales the result by `c`, for any input whatsoever
(a panicking input panics on both sides). -/
theorem b_spline_linear_in_control_points (x c : ℚ) (control_points knots : List ℚ)
    (degree : Nat) :
    b_spline x (control_points.map (fun p => c * p)) knots degree =
      Option.map (fun v => c * v) (b_spline x control_points knots degree) := by
  have h := b_spline_go_map x knots degree c control_points 0 0
  rw [mul_zero] at h
  rw [b_spline, b_spline]
  exact h

/-- C9: the recursion of `basis_activation` terminates with depth
bounded by the degree: with any fuel budget exceeding `k`, the
fuel-indexed recursion never exhausts its fuel and computes the same
result as `basis_activation`. -/
theorem basis_activation_depth_bounded (fuel i k : Nat) (x : ℚ) (knots : List ℚ)
    (h : k < fuel) :
    basis_activation_fuel fuel i k x knots = some (basis_activation i k x knots) :=
  basis_activation_fuel_spec fuel i k x knots h

theorem basis_activation_depth_bounded_witness :
    basis_activation_fuel 2 0 1 (1/2) [(0 : ℚ), 1, 2] =
      some (basis_activation 0 1 (1/2) [(0 : ℚ), 1, 2]) :=
  basis_activation_depth_bounded 2 0 1 (1/2) [(0 : ℚ), 1, 2] (by decide)

theorem evaluate_basis_zero_of_lt (x : ℚ) (knots : List ℚ)
    (hs : knots.Sorted (· ≤ ·)) (k : Nat) :
    ∀ i, i + k + 1 < knots.length → x < knots.getD i 0 →
      evaluate_basis i k x knots = 0 := by
  induction k with
  | zero =>
    intro i _ hx
    rw [evaluate_basis, if_neg]
    intro hc
    exact absurd hc.1 (not_le.2 hx)
  | succ k' ih =>
    intro i h hx
    have hx1 : x < knots.getD (i + 1) 0 :=
      lt_of_lt_of_le hx (getD_mono hs (by omega) (by omega))
    rw [evaluate_basis, ih i (by omega) hx, ih (i + 1) (by omega) hx1,
      mul_zero, mul_zero, add_zero]

theorem evaluate_basis_zero_of_ge (x : ℚ) (knots : List ℚ)
    (hs : knots.Sorted (· ≤ ·)) (k : Nat) :
    ∀ i, i + k + 1 < knots.length → knots.getD (i + k + 1) 0 ≤ x →
      evaluate_basis i k x knots = 0 := by
  induction k with
  | zero =>
    intro i _ hx
    rw [evaluate_basis, if_neg]
    intro hc
    exact absurd hc.2 (not_lt.2 hx)
  | succ k' ih =>
    intro i h hx
    have hxl : knots.getD (i + k' + 1) 0 ≤ x :=
      le_trans (getD_mono hs (by omega) (by omega)) hx
    have hxr : knots.getD (i + 1 + k' + 1) 0 ≤ x := by
      have harg : i + 1 + k' + 1 = i + (k' + 1) + 1 := by omega
      rw [harg]
      exact hx
    rw [evaluate_basis, ih i (by omega) hxl, ih (i + 1) (by omega) hxr,
      mul_zero, mul_zero, add_zero]

theorem evaluate_basis_zero_cons (x a : ℚ) (rest : List ℚ) (i : Nat) :
    evaluate_basis (i + 1) 0 x (a :: rest) = evaluate_basis i 0 x rest := by
  rw [evaluate_basis, evaluate_basis, List.getD_cons_succ, List.getD_cons_succ]

theorem sum_indicator (x : ℚ) :
    ∀ knots : List ℚ, knots.Sorted (· ≤ ·) →
      ∑ i ∈ Finset.range (knots.length - 1), evaluate_basis i 0 x knots =
        if knots.getD 0 0 ≤ x ∧ x < knots.getD (knots.length - 1) 0
        then 1 else 0 := by
  intro knots
  induction knots with
  | nil =>
    intro _
    have hc : ¬ (([] : List ℚ).getD 0 0 ≤ x ∧
        x < ([] : List ℚ).getD (([] : List ℚ).length - 1) 0) := by
      rintro ⟨h1, h2⟩
      simp only [List.getD_nil] at h1 h2
      exact absurd (lt_of_le_of_lt h1 h2) (lt_irrefl 0)
    rw [if_neg hc]
    simp
  | cons a l ih =>
    intro hs
    cases l with
    | nil =>
      have hc : ¬ (([a] : List ℚ).getD 0 0 ≤ x ∧
          x < ([a] : List ℚ).getD (([a] : List ℚ).length - 1) 0) := by
        rintro ⟨h1, h2⟩
        simp only [List.length_cons, List.length_nil, List.getD_cons_zero] at h1 h2
        exact absurd (lt_of_le_of_lt h1 h2) (lt_irrefl a)
      rw [if_neg hc]
      simp
    | cons b l' =>
      have hs' : (b :: l').Sorted (· ≤ ·) := hs.of_cons
      have hab : a ≤ b := List.rel_of_sorted_cons hs b (List.mem_cons_self b l')
      have hbL : b ≤ (b :: l').getD l'.length 0 := by
        have hmono := @getD_mono (b :: l') hs' 0 l'.length
          (Nat.zero_le _) (by simp)
        rwa [List.getD_cons_zero] at hmono
      have hlen : (a :: b :: l').length - 1 = l'.length + 1 := by simp
      have hlen' : (b :: l').length - 1 = l'.length := by simp
      rw [hlen, Finset.sum_range_succ']
      have hshift : ∀ i, evaluate_basis (i + 1) 0 x (a :: b :: l')
          = evaluate_basis i 0 x (b :: l') := fun i =>
        evaluate_basis_zero_cons x a (b :: l') i
      simp only [hshift]
      rw [← hlen', ih hs', hlen']
      rw [evaluate_basis]
      simp only [List.getD_cons_zero, List.getD_cons_succ]
      rcases le_or_lt b x with hbx | hbx
      · have hno2 : ¬(a ≤ x ∧ x < b) := fun hc => absurd hc.2 (not_lt.2 hbx)
        rw [if_neg hno2, add_zero]
        by_cases hxL : x < (b :: l').getD l'.length 0
        · rw [if_pos (And.intro hbx hxL), if_pos (And.intro (le_trans hab hbx) hxL)]
        · have hn1 : ¬(b ≤ x ∧ x < (b :: l').getD l'.length 0) := fun hc => hxL hc.2
          have hn3 : ¬(a ≤ x ∧ x < (b :: l').getD l'.length 0) := fun hc => hxL hc.2
          rw [if_neg hn1, if_neg hn3]
      · have hn1 : ¬(b ≤ x ∧ x < (b :: l').getD l'.length 0) :=
          fun hc => absurd hc.1 (not_le.2 hbx)
        rw [if_neg hn1, zero_add]
        by_cases hax : a ≤ x
        · rw [if_pos (And.intro hax hbx),
            if_pos (And.intro hax (lt_of_lt_of_le hbx hbL))]
        · have hn2 : ¬(a ≤ x ∧ x < b) := fun hc => hax hc.1
          have hn3 : ¬(a ≤ x ∧ x < (b :: l').getD l'.length 0) := fun hc => hax hc.1
          rw [if_neg hn2, if_neg hn3]

theorem evaluate_basis_succ_telescope (x : ℚ) (knots : List ℚ) (k i : Nat)
    (hd : knots.getD (i + (k + 1) + 1) 0 - knots.getD (i + 1) 0 ≠ 0) :
    evaluate_basis i (k + 1) x knots =
      (leftCoef x knots k i * evaluate_basis i k x knots
        - leftCoef x knots k (i + 1) * evaluate_basis (i + 1) k x knots)
      + evaluate_basis (i + 1) k x knots := by
  rw [evaluate_basis]
  have hb : (knots.getD (i + (k + 1) + 1) 0 - x)
      / (knots.getD (i + (k + 1) + 1) 0 - knots.getD (i + 1) 0)
      = 1 - leftCoef x knots k (i + 1) := by
    rw [leftCoef]
    have harg : i + 1 + (k + 1) = i + (k + 1) + 1 := by omega
    rw [harg, one_sub_div hd, sub_sub_sub_cancel_right]
  rw [hb]
  simp only [leftCoef]
  ring

theorem sum_step (x : ℚ) (knots : List ℚ) (k : Nat)
    (hs : knots.Sorted (· < ·))
    (hm : 2 * k + 4 ≤ knots.length)
    (hx1 : knots.getD (k + 1) 0 ≤ x)
    (hx2 : x < knots.getD (knots.length - (k + 1) - 1) 0) :
    ∑ i ∈ Finset.range (knots.length - (k + 1) - 1),
        evaluate_basis i (k + 1) x knots =
      ∑ j ∈ Finset.range (knots.length - k - 1), evaluate_basis j k x knots := by
  have hs' : knots.Sorted (· ≤ ·) := hs.imp le_of_lt
  have hterm : ∀ i ∈ Finset.range (knots.length - (k + 1) - 1),
      evaluate_basis i (k + 1) x knots =
        (leftCoef x knots k i * evaluate_basis i k x knots
          - leftCoef x knots k (i + 1) * evaluate_basis (i + 1) k x knots)
        + evaluate_basis (i + 1) k x knots := by
    intro i hi
    have hi' : i < knots.length - (k + 1) - 1 := Finset.mem_range.mp hi
    exact evaluate_basis_succ_telescope x knots k i
      (sub_ne_zero.2 (ne_of_gt (getD_strict_mono hs (by omega) (by omega))))
  rw [Finset.sum_congr rfl hterm, Finset.sum_add_distrib,
    Finset.sum_range_sub' (fun i => leftCoef x knots k i * evaluate_basis i k x knots)]
  have h0 : evaluate_basis 0 k x knots = 0 := by
    apply evaluate_basis_zero_of_ge x knots hs' k 0 (by omega)
    have harg : (0 : Nat) + k + 1 = k + 1 := by omega
    rw [harg]
    exact hx1
  have hnz : evaluate_basis (knots.length - (k + 1) - 1) k x knots = 0 :=
    evaluate_basis_zero_of_lt x knots hs' k (knots.length - (k + 1) - 1)
      (by omega) hx2
  rw [h0, hnz, mul_zero, mul_zero, sub_zero, zero_add]
  have hrange : knots.length - k - 1 = (knots.length - (k + 1) - 1) + 1 := by omega
  rw [hrange, Finset.sum_range_succ', h0, add_zero]

theorem partition_of_unity_spec (x : ℚ) (knots : List ℚ)
    (hs : knots.Sorted (· < ·)) :
    ∀ k, 2 * k + 2 ≤ knots.length →
      knots.getD k 0 ≤ x → x < knots.getD (knots.length - k - 1) 0 →
      ∑ i ∈ Finset.range (knots.length - k - 1), evaluate_basis i k x knots = 1 := by
  have hs' : knots.Sorted (· ≤ ·) := hs.imp le_of_lt
  intro k
  induction k with
  | zero =>
    intro hm hx1 hx2
    simp only [Nat.sub_zero] at hx2 ⊢
    rw [sum_indicator x knots hs', if_pos ⟨hx1, hx2⟩]
  | succ k' ih =>
    intro hm hx1 hx2
    rw [sum_step x knots k' hs (by omega) hx1 hx2]
    exact ih (by omega)
      (le_trans (getD_mono hs' (by omega) (by omega)) hx1)
      (lt_of_lt_of_le hx2 (getD_mono hs' (by omega) (by omega)))

/-- C3: partition of unity.  For a strictly increasing knot vector (no
repeated knots) and `x` inside the supported domain
`[knots[k], knots[m - k - 1])` (the last knot span boundary excluded by
the half-open convention), the values of all `m - k - 1` degree-`k`
basis functions sum to exactly `1` in exact arithmetic — in particular
within any floating-point tolerance such as `1e-9`. -/
theorem basis_activation_partition_of_unity (x : ℚ) (knots : List ℚ) (k : Nat)
    (hs : knots.Sorted (· < ·)) (hm : 2 * k + 2 ≤ knots.length)
    (hx1 : knots.getD k 0 ≤ x)
    (hx2 : x < knots.getD (knots.length - k - 1) 0) :
    ∑ i ∈ Finset.range (knots.length - k - 1),
      (basis_activation i k x knots).getD 0 = 1 := by
  have h := partition_of_unity_spec x knots hs k hm hx1 hx2
  rw [← h]
  apply Finset.sum_congr rfl
  intro i hi
  have hi' : i < knots.length - k - 1 := Finset.mem_range.mp hi
  rw [basis_activation_eq_some k x knots i (by omega)]
  rfl

theorem basis_activation_partition_of_unity_witness :
    ∑ i ∈ Finset.range (([(0 : ℚ), 1, 2, 3]).length - 1 - 1),
      (basis_activation i 1 (3/2) [(0 : ℚ), 1, 2, 3]).getD 0 = 1 :=
  basis_activation_partition_of_unity (3/2) [(0 : ℚ), 1, 2, 3] 1
    (by decide) (by decide)
    (by norm_num [List.getD_cons_succ, List.getD_cons_zero])
    (by norm_num [List.getD_cons_succ, List.getD_cons_zero])

/-- C6: `basis_activation` performs its divisions with no
zero-denominator guard.  On the knot vector `[0, 0, 0, 1, 2]` at
`x = 1/2` with `i = 0`, `k = 2`, the repeated knot makes the left
denominator `knots[i + k] - knots[i]` zero while the corresponding
recursive factor `basis_activation(i, k - 1, x)` is non-zero (it is
NaN), and the call returns NaN: a non-finite value propagated
arithmetically through the IEEE-754 semantics instead of an error. -/
theorem basis_activation_fp_nan_propagation :
    (([FP.fin 0, FP.fin 0, FP.fin 0, FP.fin 1, FP.fin 2].getD 2 FP.nan).sub
      ([FP.fin 0, FP.fin 0, FP.fin 0, FP.fin 1, FP.fin 2].getD 0 FP.nan)
        = FP.fin 0) ∧
    basis_activation_fp 0 1 (FP.fin (1/2))
      [FP.fin 0, FP.fin 0, FP.fin 0, FP.fin 1, FP.fin 2] ≠ some (FP.fin 0) ∧
    basis_activation_fp 0 2 (FP.fin (1/2))
      [FP.fin 0, FP.fin 0, FP.fin 0, FP.fin 1, FP.fin 2] = some FP.nan :=
  ⟨by norm_num [FP.sub],
   by
    norm_num [basis_activation_fp, FP.sub, FP.div, FP.mul, FP.add, FP.le, FP.lt]
    exact fun h => FP.noConfusion h,
   by norm_num [basis_activation_fp, FP.sub, FP.div, FP.mul, FP.add, FP.le, FP.lt]⟩

/-- C10: with an empty control-point sequence the loop of `b_spline`
runs zero iterations, so it returns `0.0` and performs no knot access
for any parameter, any knot vector and any degree. -/
theorem b_spline_empty_control_points (x : ℚ) (knots : List ℚ) (degree : Nat) :
    b_spline x [] knots degree = some 0 := rfl

end BSplineVerif
